import Mathlib

/-!
Verification of the gomamayo phonetic-overlap analyzer (statiolake/gomamayo-rs).

Strings are modelled as `List Char`; a mora is a `List Char` (one base
character plus absorbed small-kana combining characters); a mora sequence is
a `List (List Char)`.  The definitions below are shallow embeddings of the
Rust functions in `src/lib.rs` and the CLI loop in `src/main.rs`; the
external morphological analyzer (lindera) is out of scope and is modelled by
the token values it returns.
-/

namespace GomamayoRs

/-- The small-kana combining set, the characters of `"ャュョァィゥェォ"`
in `into_moras` (`src/lib.rs` line 114). -/
def smallKana : List Char := ['ャ', 'ュ', 'ョ', 'ァ', 'ィ', 'ゥ', 'ェ', 'ォ']

/-- The accumulator loop of `into_moras` (`src/lib.rs` lines 113-124):
`cs` is the remaining input, `curr` the mora buffer under construction. -/
def intoMorasAux : List Char → List Char → List (List Char)
  | [], curr => if curr = [] then [] else [curr]
  | c :: cs, curr =>
    if ¬ smallKana.contains c ∧ curr ≠ [] then
      curr :: intoMorasAux cs [c]
    else
      intoMorasAux cs (curr ++ [c])

/-- `into_moras` (`src/lib.rs` lines 109-127): segment a pronunciation
string into morae. -/
def into_moras (pronounciation : List Char) : List (List Char) :=
  intoMorasAux pronounciation []

/-- The descending overlap search inside `compute_ary_and_degree`
(`src/lib.rs` lines 138-140), searching `d` from `n` down to `1` and
returning `0` when no `d` matches. -/
def findOverlapFrom (left right : List (List Char)) : Nat → Nat
  | 0 => 0
  | d + 1 =>
    if left.drop (left.length - (d + 1)) = right.take (d + 1) then d + 1
    else findOverlapFrom left right d

/-- The overlap degree of one junction: the largest `d` in
`1..=min(len left, len right)` such that the last `d` morae of `left`
equal the first `d` morae of `right`, and `0` if none matches
(`src/lib.rs` lines 138-140; `None` from `find` is rendered as `0`). -/
def find_overlap (left right : List (List Char)) : Nat :=
  findOverlapFrom left right (min left.length right.length)

/-- The accumulator loop of `compute_ary_and_degree`
(`src/lib.rs` lines 133-146) over the list of mora sequences:
`tuple_windows` visits each consecutive pair. -/
def computeAux : List (List (List Char)) → Int → Int → Int × Int
  | l :: r :: rest, ary, maxDegree =>
    let d := find_overlap l r
    if 0 < d then computeAux (r :: rest) (ary + 1) (max maxDegree (d : Int))
    else computeAux (r :: rest) ary maxDegree
  | _, ary, maxDegree => (ary, maxDegree)

/-- `compute_ary_and_degree` (`src/lib.rs` lines 129-149). -/
def compute_ary_and_degree (pronounciations : List (List Char)) : Int × Int :=
  computeAux (pronounciations.map into_moras) 0 0

/-- `GomamayoKind` (`src/lib.rs` lines 48-52). -/
structure GomamayoKind where
  ary : Int
  degree : Int
deriving DecidableEq, Repr

/-- `Gomamayo` (`src/lib.rs` lines 42-46). -/
structure Gomamayo where
  kind : Option GomamayoKind
  pronounciations : List (List Char)
deriving DecidableEq, Repr

/-- The pure tail of `analyze` (`src/lib.rs` lines 154-164): classify an
already-resolved list of pronunciation strings. -/
def analyzeReadings (pronounciations : List (List Char)) : Gomamayo :=
  let ad := compute_ary_and_degree pronounciations
  let kind := if 0 < ad.1 then some ⟨ad.1, ad.2⟩ else none
  { kind := kind, pronounciations := pronounciations }

/-- The junction degrees of a phrase, stated declaratively: the overlap of
each consecutive pair of mora sequences, in order. -/
def junctionDegreesOfSeqs : List (List (List Char)) → List Nat
  | l :: r :: rest => find_overlap l r :: junctionDegreesOfSeqs (r :: rest)
  | _ => []

/-- Junction degrees of a list of pronunciation strings. -/
def junctionDegrees (pronounciations : List (List Char)) : List Nat :=
  junctionDegreesOfSeqs (pronounciations.map into_moras)

/-- `LINDERA_DETAIL_READING_COLUMN` (`src/lib.rs` line 12). -/
def LINDERA_DETAIL_READING_COLUMN : Nat := 6

/-- `LINDERA_DETAIL_PRONOUNCIATION_COLUMN` (`src/lib.rs` line 13). -/
def LINDERA_DETAIL_PRONOUNCIATION_COLUMN : Nat := 9

/-- `UnknownPronounciationError` (`src/lib.rs` lines 17-20). -/
structure UnknownPronounciationError where
  text : List Char
deriving DecidableEq, Repr

/-- A lindera token as seen by `tokenize_to_pronounciations`: its surface
text and the optional detail row returned by `token.get_details()`. The
tokenizer producing these is the external lindera crate. -/
structure Token where
  text : List Char
  details : Option (List (List Char))
deriving DecidableEq, Repr

/-- The reading-column fallback inside the per-token closure
(`src/lib.rs` lines 90-94): the reading column when present and not `"*"`. -/
def fallbackReadingColumn (d : List (List Char)) : Option (List Char) :=
  match d.get? LINDERA_DETAIL_READING_COLUMN with
  | some r => if r ≠ ['*'] then some r else none
  | none => none

/-- The per-token reading resolution (`src/lib.rs` lines 80-97): the
pronunciation column when present and not `"*"`, else the reading column
when present and not `"*"`, else nothing. -/
def resolveReading (t : Token) : Option (List Char) :=
  t.details.bind fun d =>
    match d.get? LINDERA_DETAIL_PRONOUNCIATION_COLUMN with
    | some p => if p ≠ ['*'] then some p else fallbackReadingColumn d
    | none => fallbackReadingColumn d

/-- The mapping step of `tokenize_to_pronounciations`
(`src/lib.rs` lines 78-104): resolve each token in order, short-circuiting
with `UnknownPronounciationError` carrying the token's text on the first
token with no resolvable reading, as `collect::<Result<_, _>>` does. -/
def tokensToPronounciations :
    List Token → Except UnknownPronounciationError (List (List Char))
  | [] => .ok []
  | t :: ts =>
    match resolveReading t with
    | some p =>
      match tokensToPronounciations ts with
      | .ok ps => .ok (p :: ps)
      | .error e => .error e
    | none => .error ⟨t.text⟩

/-- `GomamayoError` (`src/lib.rs` lines 22-28); the payloads of the two
external error types do not influence control flow and are dropped. -/
inductive GomamayoError where
  | ioError
  | linderaError
  | unknownPronounciationError (e : UnknownPronounciationError)
deriving DecidableEq, Repr

/-- One console event of the CLI (`src/main.rs`): one `eprintln!`
diagnostic or one `println!` result line. -/
inductive Event where
  | errTokenize
  | errUnknownReading (text : List Char)
  | errUnknown
  | outGomamayo (input : List Char) (ary degree : Int)
  | outNotGomamayo (input : List Char)
deriving DecidableEq, Repr

/-- Whether an event is a diagnostic on the error stream. -/
def isStderr : Event → Bool
  | .errTokenize => true
  | .errUnknownReading _ => true
  | .errUnknown => true
  | _ => false

/-- Rust's `str::trim` (`src/main.rs` line 7): strip whitespace from both
ends. -/
def trim (s : List Char) : List Char :=
  ((s.dropWhile Char.isWhitespace).reverse.dropWhile Char.isWhitespace).reverse

/-- The loop of `main` (`src/main.rs` lines 5-30), parametrized by the
result of `analyze` on each input (analysis runs the external tokenizer):
each phrase is trimmed and analyzed; on `Ok` one result line is printed and
the loop continues; on any `Err` one diagnostic is printed and `main`
returns, so no further phrase is processed. -/
def mainLoop (analyzeResult : List Char → Except GomamayoError Gomamayo) :
    List (List Char) → List Event
  | [] => []
  | input :: rest =>
    let inp := trim input
    match analyzeResult inp with
    | .error .linderaError => [.errTokenize]
    | .error (.unknownPronounciationError e) => [.errUnknownReading e.text]
    | .error .ioError => [.errUnknown]
    | .ok g =>
      match g.kind with
      | some k => .outGomamayo inp k.ary k.degree :: mainLoop analyzeResult rest
      | none => .outNotGomamayo inp :: mainLoop analyzeResult rest

/-! ### Helper lemmas about the mora segmenter -/

/-- Joining the output of the segmenter loop restores the buffer followed by
the remaining input. -/
theorem intoMorasAux_join (cs : List Char) :
    ∀ curr, (intoMorasAux cs curr).flatten = curr ++ cs := by
  induction cs with
  | nil =>
    intro curr
    by_cases h : curr = [] <;> simp [intoMorasAux, h]
  | cons c cs ih =>
    intro curr
    simp only [intoMorasAux]
    split
    · simp [ih]
    · rw [ih]; simp

/-- With a non-empty buffer, the first emitted mora extends the buffer and
keeps its head character. -/
theorem intoMorasAux_head (cs : List Char) :
    ∀ h tl, ∃ u rest, intoMorasAux cs (h :: tl) = ((h :: tl) ++ u) :: rest := by
  induction cs with
  | nil =>
    intro h tl
    exact ⟨[], [], by simp [intoMorasAux]⟩
  | cons c cs ih =>
    intro h tl
    simp only [intoMorasAux]
    split
    · exact ⟨[], intoMorasAux cs [c], by simp⟩
    · obtain ⟨u, rest, hu⟩ := ih h (tl ++ [c])
      exact ⟨[c] ++ u, rest, by simpa using hu⟩

/-- Unfolding the segmenter on a first character: the empty buffer never
flushes, the character is simply buffered. -/
theorem into_moras_cons (c : Char) (cs : List Char) :
    into_moras (c :: cs) = intoMorasAux cs [c] := by
  simp [into_moras, intoMorasAux]

/-- When the buffer starts with a non-combining base, every emitted mora
starts with a non-combining base. -/
theorem intoMorasAux_all_base (cs : List Char) :
    ∀ b tl, b ∉ smallKana →
      ∀ m ∈ intoMorasAux cs (b :: tl), ∃ b' t, m = b' :: t ∧ b' ∉ smallKana := by
  induction cs with
  | nil =>
    intro b tl hb m hm
    simp [intoMorasAux] at hm
    subst hm
    exact ⟨b, tl, rfl, hb⟩
  | cons c cs ih =>
    intro b tl hb m hm
    simp only [intoMorasAux] at hm
    split at hm
    · next hcond =>
      rcases List.mem_cons.mp hm with rfl | hm
      · exact ⟨b, tl, rfl, hb⟩
      · exact ih c [] (by simpa using hcond.1) m hm
    · exact ih b (tl ++ [c]) hb m (by simpa using hm)

/-- Whatever the starting buffer, every mora after the first one emitted
starts with a non-combining base. -/
theorem intoMorasAux_tail_base (cs : List Char) :
    ∀ curr, ∀ m ∈ (intoMorasAux cs curr).tail,
      ∃ b t, m = b :: t ∧ b ∉ smallKana := by
  induction cs with
  | nil =>
    intro curr m hm
    by_cases h : curr = [] <;> simp [intoMorasAux, h] at hm
  | cons c cs ih =>
    intro curr m hm
    simp only [intoMorasAux] at hm
    split at hm
    · next hcond =>
      exact intoMorasAux_all_base cs c [] (by simpa using hcond.1) m
        (by simpa using hm)
    · exact ih (curr ++ [c]) m hm

/-! ### Helper lemmas about the overlap search -/

/-- The descending search never exceeds its starting bound. -/
theorem findOverlapFrom_le (l r : List (List Char)) :
    ∀ n, findOverlapFrom l r n ≤ n := by
  intro n
  induction n with
  | zero => simp [findOverlapFrom]
  | succ d ih =>
    simp only [findOverlapFrom]
    split
    · exact le_refl _
    · exact le_trans ih (Nat.le_succ d)

/-- A positive search result is a genuine suffix/prefix match. -/
theorem findOverlapFrom_pos_match (l r : List (List Char)) :
    ∀ n, 0 < findOverlapFrom l r n →
      l.drop (l.length - findOverlapFrom l r n) =
        r.take (findOverlapFrom l r n) := by
  intro n
  induction n with
  | zero => simp [findOverlapFrom]
  | succ d ih =>
    simp only [findOverlapFrom]
    split
    · next h => exact fun _ => h
    · exact ih

/-- The search is maximal: any matching depth within the bound is at most
the returned value. -/
theorem findOverlapFrom_max (l r : List (List Char)) :
    ∀ n d, 0 < d → d ≤ n → l.drop (l.length - d) = r.take d →
      d ≤ findOverlapFrom l r n := by
  intro n
  induction n with
  | zero => intro d hd hdn _; omega
  | succ m ih =>
    intro d hd hdn hmatch
    simp only [findOverlapFrom]
    split
    · exact hdn
    · next hne =>
      have hdm : d ≤ m := by
        rcases Nat.lt_or_ge d (m + 1) with h | h
        · omega
        · exact absurd (by rw [← Nat.le_antisymm hdn h] at hne; exact hne hmatch)
            (by simp)
      exact ih d hd hdm hmatch

/-! ### Helper lemmas about the aggregation loop -/

/-- The accumulator loop computes the count of positive junction degrees and
the maximum junction degree, declaratively. -/
theorem computeAux_eq (seqs : List (List (List Char))) :
    ∀ a m : Int, 0 ≤ m → computeAux seqs a m =
      (a + ((junctionDegreesOfSeqs seqs).countP (fun d => 0 < d) : Int),
        max m (((junctionDegreesOfSeqs seqs).foldr Nat.max 0 : Nat) : Int)) := by
  induction seqs with
  | nil =>
    intro a m hm
    simp [computeAux, junctionDegreesOfSeqs, max_eq_left hm]
  | cons l rest ih =>
    intro a m hm
    cases rest with
    | nil => simp [computeAux, junctionDegreesOfSeqs, max_eq_left hm]
    | cons r rest =>
      simp only [computeAux, junctionDegreesOfSeqs]
      split
      · next hpos =>
        rw [ih (a + 1) (max m (find_overlap l r : Int))
          (le_trans hm (le_max_left _ _))]
        have hcount : decide (0 < find_overlap l r) = true := by simpa using hpos
        simp only [List.countP_cons, List.foldr_cons, hcount, Prod.mk.injEq,
          Nat.cast_max]
        exact ⟨by push_cast; ring, (max_assoc m _ _).symm ▸ rfl⟩
      · next hpos =>
        have hz : find_overlap l r = 0 := by omega
        rw [ih a m hm]
        simp [List.countP_cons, List.foldr_cons, hz]

/-! ### Helper lemmas about reading resolution -/

/-- When every token resolves, the collection succeeds. -/
theorem tokensToPronounciations_ok (ts : List Token) :
    (∀ t ∈ ts, (resolveReading t).isSome) →
      ∃ ps, tokensToPronounciations ts = .ok ps := by
  induction ts with
  | nil => exact fun _ => ⟨[], rfl⟩
  | cons t ts ih =>
    intro h
    obtain ⟨p, hp⟩ := Option.isSome_iff_exists.mp (h t (by simp))
    obtain ⟨ps, hps⟩ := ih (fun u hu => h u (by simp [hu]))
    exact ⟨p :: ps, by simp [tokensToPronounciations, hp, hps]⟩

/-- The first unresolvable token aborts the collection with an error
carrying exactly that token's text. -/
theorem tokensToPronounciations_error (pre : List Token) :
    ∀ (t : Token) post, (∀ u ∈ pre, (resolveReading u).isSome) →
      resolveReading t = none →
      tokensToPronounciations (pre ++ t :: post) = .error ⟨t.text⟩ := by
  induction pre with
  | nil =>
    intro t post _ ht
    simp [tokensToPronounciations, ht]
  | cons u pre ih =>
    intro t post h ht
    obtain ⟨p, hp⟩ := Option.isSome_iff_exists.mp (h u (by simp))
    have hrec := ih t post (fun v hv => h v (by simp [hv])) ht
    simp [tokensToPronounciations, hp, hrec]

/-- The reading-column fallback yields nothing exactly when the reading
column is absent or `"*"`. -/
theorem fallbackReadingColumn_none_iff (d : List (List Char)) :
    fallbackReadingColumn d = none ↔
      (d.get? LINDERA_DETAIL_READING_COLUMN = none
        ∨ d.get? LINDERA_DETAIL_READING_COLUMN = some ['*']) := by
  unfold fallbackReadingColumn
  split
  · next r heq =>
    rw [heq]
    by_cases hrs : r = ['*']
    · subst hrs
      simp
    · simp [hrs]
  · next heq =>
    rw [heq]
    simp

/-- A token fails to resolve exactly when its details are absent or both
the pronunciation column and the reading column are absent or `"*"`. -/
theorem resolveReading_none_iff (t : Token) :
    resolveReading t = none ↔
      (t.details = none ∨ ∃ d, t.details = some d
        ∧ (d.get? LINDERA_DETAIL_PRONOUNCIATION_COLUMN = none
            ∨ d.get? LINDERA_DETAIL_PRONOUNCIATION_COLUMN = some ['*'])
        ∧ (d.get? LINDERA_DETAIL_READING_COLUMN = none
            ∨ d.get? LINDERA_DETAIL_READING_COLUMN = some ['*'])) := by
  obtain ⟨tx, det⟩ := t
  cases det with
  | none => simp [resolveReading]
  | some d =>
    have hres : resolveReading ⟨tx, some d⟩ =
        (match d.get? LINDERA_DETAIL_PRONOUNCIATION_COLUMN with
         | some p => if p ≠ ['*'] then some p else fallbackReadingColumn d
         | none => fallbackReadingColumn d) := rfl
    rw [hres]
    split
    · next p heq =>
      by_cases hps : p = ['*']
      · subst hps
        rw [if_neg (by simp)]
        rw [fallbackReadingColumn_none_iff]
        constructor
        · intro h
          exact Or.inr ⟨d, rfl, Or.inr heq, h⟩
        · rintro (hc | ⟨d', hd', _, hr⟩)
          · cases hc
          · injection hd' with hd''
            subst hd''
            exact hr
      · rw [if_pos hps]
        constructor
        · intro h
          cases h
        · rintro (hc | ⟨d', hd', hpcol, _⟩)
          · cases hc
          · injection hd' with hd''
            subst hd''
            rcases hpcol with hn | hs
            · rw [heq] at hn
              cases hn
            · rw [heq] at hs
              injection hs with hps2
              exact absurd hps2 hps
    · next heq =>
      rw [fallbackReadingColumn_none_iff]
      constructor
      · intro h
        exact Or.inr ⟨d, rfl, Or.inl heq, h⟩
      · rintro (hc | ⟨d', hd', _, hr⟩)
        · cases hc
        · injection hd' with hd''
          subst hd''
          exact hr

/-! ### Claims -/

/-- C1: for every ordered list of readings, the classification computes an
overlap degree for each consecutive pair of mora sequences; `ary` is the
number of pairs with nonzero overlap, `degree` is the maximum overlap over
all pairs (`0` if there is no pair), and `kind = some ⟨ary, degree⟩` iff
`ary > 0` (`kind = none` iff `ary = 0`). -/
theorem aggregation_law (ps : List (List Char)) :
    (compute_ary_and_degree ps).1 =
      ((junctionDegrees ps).countP (fun d => 0 < d) : Int)
    ∧ (compute_ary_and_degree ps).2 =
      (((junctionDegrees ps).foldr Nat.max 0 : Nat) : Int)
    ∧ ((analyzeReadings ps).kind = none ↔ (compute_ary_and_degree ps).1 = 0)
    ∧ ((analyzeReadings ps).kind =
        some ⟨(compute_ary_and_degree ps).1, (compute_ary_and_degree ps).2⟩
        ↔ 0 < (compute_ary_and_degree ps).1) := by
  have h := computeAux_eq (ps.map into_moras) 0 0 (le_refl 0)
  have h1 : (compute_ary_and_degree ps).1 =
      ((junctionDegrees ps).countP (fun d => 0 < d) : Int) := by
    rw [compute_ary_and_degree, h]
    simp [junctionDegrees]
  have h2 : (compute_ary_and_degree ps).2 =
      (((junctionDegrees ps).foldr Nat.max 0 : Nat) : Int) := by
    rw [compute_ary_and_degree, h]
    simp [junctionDegrees]
  have hnn : 0 ≤ (compute_ary_and_degree ps).1 := by
    rw [h1]; exact Int.natCast_nonneg _
  have hk : (analyzeReadings ps).kind =
      if 0 < (compute_ary_and_degree ps).1 then
        some ⟨(compute_ary_and_degree ps).1, (compute_ary_and_degree ps).2⟩
      else none := rfl
  refine ⟨h1, h2, ?_, ?_⟩
  · rw [hk]
    by_cases hpos : 0 < (compute_ary_and_degree ps).1
    · rw [if_pos hpos]
      constructor
      · intro hc
        exact absurd hc (by simp)
      · intro h0
        exact absurd hpos (by omega)
    · rw [if_neg hpos]
      simp only [true_iff]
      omega
  · rw [hk]
    by_cases hpos : 0 < (compute_ary_and_degree ps).1
    · rw [if_pos hpos]
      simp [hpos]
    · rw [if_neg hpos]
      simp [hpos]

/-- Witness for C1 at a concrete phrase. -/
theorem aggregation_law_witness :
    (compute_ary_and_degree (["ゴマ", "マヨ"].map String.toList)).1 =
      ((junctionDegrees (["ゴマ", "マヨ"].map String.toList)).countP
        (fun d => 0 < d) : Int) :=
  (aggregation_law (["ゴマ", "マヨ"].map String.toList)).1

/-- C2: for every pair of mora sequences, `find_overlap` returns the largest
`d` in `1..=min(len left, len right)` with the last `d` morae of `left`
equal to the first `d` morae of `right`, and `0` when no such `d` exists,
in particular when either sequence is empty; the result never exceeds
`min(len left, len right)`. -/
theorem find_overlap_spec (l r : List (List Char)) :
    find_overlap l r ≤ min l.length r.length
    ∧ (0 < find_overlap l r →
        l.drop (l.length - find_overlap l r) = r.take (find_overlap l r))
    ∧ (∀ d, 0 < d → d ≤ min l.length r.length →
        l.drop (l.length - d) = r.take d → d ≤ find_overlap l r)
    ∧ (l = [] ∨ r = [] → find_overlap l r = 0) := by
  refine ⟨findOverlapFrom_le l r _, findOverlapFrom_pos_match l r _,
    fun d hd hdn hm => findOverlapFrom_max l r _ d hd hdn hm, ?_⟩
  intro h
  have hle := findOverlapFrom_le l r (min l.length r.length)
  rcases h with h | h <;> subst h <;> simp [find_overlap] at hle ⊢ <;> omega

/-- Witness for C2 at a concrete junction. -/
theorem find_overlap_spec_witness :
    [['ゴ'], ['マ']].drop
        ([['ゴ'], ['マ']].length - find_overlap [['ゴ'], ['マ']] [['マ'], ['ヨ']]) =
      [['マ'], ['ヨ']].take (find_overlap [['ゴ'], ['マ']] [['マ'], ['ヨ']]) :=
  (find_overlap_spec [['ゴ'], ['マ']] [['マ'], ['ヨ']]).2.1 (by decide)

/-- C3: for every reading string, concatenating the morae produced by
`into_moras` in order yields exactly the input, and the empty string
produces the empty sequence. -/
theorem reconstruction_law (s : List Char) :
    (into_moras s).flatten = s ∧ into_moras ([] : List Char) = [] :=
  ⟨by simpa using intoMorasAux_join s [], rfl⟩

/-- Witness for C3 at a concrete reading. -/
theorem reconstruction_law_witness :
    (into_moras "シューリョー".toList).flatten = "シューリョー".toList :=
  (reconstruction_law "シューリョー".toList).1

/-- C4: the segmenter scans characters left to right with a buffer: a
character outside the small-kana combining set flushes a non-empty buffer
before being appended, any character is appended to the buffer otherwise,
a non-empty final buffer is emitted at the end, and
`"オレンジジュース"` segments to `[オ, レ, ン, ジ, ジュ, ー, ス]`. -/
theorem segmenter_scan (c : Char) (cs curr : List Char) :
    (smallKana.contains c = false → curr ≠ [] →
        intoMorasAux (c :: cs) curr = curr :: intoMorasAux cs [c])
    ∧ (smallKana.contains c = true ∨ curr = [] →
        intoMorasAux (c :: cs) curr = intoMorasAux cs (curr ++ [c]))
    ∧ (curr ≠ [] → intoMorasAux [] curr = [curr])
    ∧ into_moras "オレンジジュース".toList =
        [['オ'], ['レ'], ['ン'], ['ジ'], ['ジ', 'ュ'], ['ー'], ['ス']] := by
  refine ⟨?_, ?_, ?_, by decide⟩
  · intro hc hcur
    have hc' : c ∉ smallKana := by simpa using hc
    simp [intoMorasAux, hc', hcur]
  · intro h
    rcases h with h | h
    · have h' : c ∈ smallKana := by simpa using h
      simp [intoMorasAux, h']
    · simp [intoMorasAux, h]
  · intro h
    simp [intoMorasAux, h]

/-- Witness for C4: the flush step at a concrete character and buffer. -/
theorem segmenter_scan_witness :
    intoMorasAux ['ー'] ['ジ', 'ュ'] = ['ジ', 'ュ'] :: intoMorasAux [] ['ー'] :=
  (segmenter_scan 'ー' [] ['ジ', 'ュ']).1 (by decide) (by decide)

/-- C5: the phrase `[タイコ, コーボ, ボシュー, シューリョー]` classifies as
`ary = 3`, `degree = 2`: all three junctions overlap (degrees `[1, 1, 2]`)
and the longest overlap is the two-mora sequence `[シュ, ー]`. -/
theorem taiko_phrase :
    compute_ary_and_degree
        (["タイコ", "コーボ", "ボシュー", "シューリョー"].map String.toList) = (3, 2)
    ∧ junctionDegrees
        (["タイコ", "コーボ", "ボシュー", "シューリョー"].map String.toList) = [1, 1, 2]
    ∧ (into_moras "ボシュー".toList).drop 1 = [['シ', 'ュ'], ['ー']]
    ∧ (into_moras "シューリョー".toList).take 2 = [['シ', 'ュ'], ['ー']] := by
  exact ⟨by decide, by decide, by decide, by decide⟩

/-- C6: a phrase with exactly one reading, and also the empty phrase,
classifies as `ary = 0`, `degree = 0`, `kind = none`. -/
theorem single_token_law (p : List Char) :
    compute_ary_and_degree [p] = (0, 0) ∧ (analyzeReadings [p]).kind = none
    ∧ compute_ary_and_degree ([] : List (List Char)) = (0, 0)
    ∧ (analyzeReadings ([] : List (List Char))).kind = none :=
  ⟨rfl, rfl, rfl, rfl⟩

/-- Witness for C6 at a concrete reading. -/
theorem single_token_law_witness :
    compute_ary_and_degree ["パパイヤ".toList] = (0, 0) :=
  (single_token_law "パパイヤ".toList).1

/-- C7 counterexample: on a reading whose first character is the combining
small kana `ャ`, the single mora produced starts with a combining-set
character, so not every mora starts with a non-combining base. -/
theorem mora_base_counterexample :
    into_moras ['ャ'] = [['ャ']] ∧ 'ャ' ∈ smallKana := by decide

/-- C7 (amended): every mora after the first starts with a non-combining
base character; when the reading itself starts with a non-combining
character, every mora does — a combining-set character absorbed into no
mora can therefore only occur at the very start of the reading. -/
theorem mora_base_law (s : List Char) :
    (∀ m ∈ (into_moras s).tail, ∃ b t, m = b :: t ∧ b ∉ smallKana)
    ∧ (∀ c cs, s = c :: cs → c ∉ smallKana →
        ∀ m ∈ into_moras s, ∃ b t, m = b :: t ∧ b ∉ smallKana)
    ∧ (∀ c cs curr, c ∉ smallKana → curr ≠ [] →
        intoMorasAux (c :: cs) curr = curr :: intoMorasAux cs [c]) := by
  refine ⟨?_, ?_, ?_⟩
  · intro m hm
    exact intoMorasAux_tail_base s [] m hm
  · rintro c cs rfl hc m hm
    rw [into_moras_cons] at hm
    exact intoMorasAux_all_base cs c [] hc m hm
  · intro c cs curr hc hcur
    simp [intoMorasAux, hc, hcur]

/-- Witness for the amended C7 at a concrete reading. -/
theorem mora_base_law_witness :
    ∃ b t, ['シ', 'ャ'] = b :: t ∧ b ∉ smallKana :=
  (mora_base_law "シャワー".toList).2.1 'シ' ['ャ', 'ワ', 'ー'] rfl (by decide)
    ['シ', 'ャ'] (by decide)

/-- C10: a non-empty reading starting with a combining-set character still
segments without failure: the result is non-empty, its first mora starts
with that combining character, and flattening restores the input. -/
theorem combining_start_law (c : Char) (cs : List Char) :
    c ∈ smallKana →
      (∃ u rest, into_moras (c :: cs) = (c :: u) :: rest)
      ∧ (into_moras (c :: cs)).flatten = c :: cs
      ∧ into_moras (c :: cs) ≠ [] := by
  intro _
  obtain ⟨u, rest, hu⟩ := intoMorasAux_head cs c []
  rw [into_moras_cons]
  refine ⟨⟨u, rest, by simpa using hu⟩, ?_, ?_⟩
  · simpa using intoMorasAux_join cs [c]
  · rw [hu]
    simp

/-- Witness for C10 at a concrete combining-initial reading. -/
theorem combining_start_law_witness :
    (∃ u rest, into_moras ('ャ' :: ['マ']) = ('ャ' :: u) :: rest)
    ∧ (into_moras ('ャ' :: ['マ'])).flatten = 'ャ' :: ['マ']
    ∧ into_moras ('ャ' :: ['マ']) ≠ [] :=
  combining_start_law 'ャ' ['マ'] (by decide)

/-- C8: when some token has neither a pronunciation nor a fallback reading
(details absent, or both columns absent or `"*"`), the collection returns
the unresolved-reading error carrying exactly the first such token's text
and substitutes no default; when every token resolves, it returns `ok`. -/
theorem unresolved_reading_law (ts : List Token) :
    ((∀ t ∈ ts, (resolveReading t).isSome) →
        ∃ ps, tokensToPronounciations ts = .ok ps)
    ∧ (∀ pre t post, ts = pre ++ t :: post →
        (∀ u ∈ pre, (resolveReading u).isSome) →
        resolveReading t = none →
        tokensToPronounciations ts = .error ⟨t.text⟩)
    ∧ (∀ t : Token, resolveReading t = none ↔
        (t.details = none ∨ ∃ d, t.details = some d
          ∧ (d.get? LINDERA_DETAIL_PRONOUNCIATION_COLUMN = none
              ∨ d.get? LINDERA_DETAIL_PRONOUNCIATION_COLUMN = some ['*'])
          ∧ (d.get? LINDERA_DETAIL_READING_COLUMN = none
              ∨ d.get? LINDERA_DETAIL_READING_COLUMN = some ['*']))) := by
  refine ⟨tokensToPronounciations_ok ts, ?_, resolveReading_none_iff⟩
  intro pre t post heq h1 h2
  rw [heq]
  exact tokensToPronounciations_error pre t post h1 h2

/-- Witness for C8: a token whose pronunciation and reading columns are both
`"*"` aborts the collection with an error carrying its text. -/
theorem unresolved_reading_law_witness :
    tokensToPronounciations
        [⟨"ホゲ".toList,
          some [[], [], [], [], [], [], ['*'], [], [], ['*']]⟩] =
      .error ⟨"ホゲ".toList⟩ :=
  (unresolved_reading_law
      [⟨"ホゲ".toList, some [[], [], [], [], [], [], ['*'], [], [], ['*']]⟩]).2.1
    [] ⟨"ホゲ".toList, some [[], [], [], [], [], [], ['*'], [], [], ['*']]⟩ []
    rfl (by simp) (by decide)

/-- C9 counterexample: with an analyzer that fails on the first phrase and
succeeds on the second, the CLI loop emits only the first phrase's
diagnostic — the remaining phrase is not processed, contradicting the
claim that processing continues. -/
theorem cli_continue_counterexample :
    mainLoop
        (fun s => if s = "ホゲ".toList
          then Except.error GomamayoError.linderaError
          else Except.ok (analyzeReadings ["タイコ".toList]))
        ["ホゲ".toList, "タイコ".toList] = [Event.errTokenize] := by
  decide

/-- C9 (amended): when the analysis of a phrase fails, the CLI prints one
diagnostic to the error stream and returns: phrases before the failing one
are processed normally and no phrase after it is processed. -/
theorem cli_error_stop (f : List Char → Except GomamayoError Gomamayo)
    (pre : List (List Char)) (x : List Char) (rest : List (List Char)) :
    (∀ p ∈ pre, ∃ g, f (trim p) = .ok g) →
    (∃ e, f (trim x) = .error e) →
      mainLoop f (pre ++ x :: rest) = mainLoop f pre ++ mainLoop f [x]
      ∧ mainLoop f (pre ++ x :: rest) = mainLoop f (pre ++ [x])
      ∧ ∃ ev, mainLoop f [x] = [ev] ∧ isStderr ev = true := by
  intro hpre hx
  obtain ⟨e, he⟩ := hx
  have hone : ∀ rest', mainLoop f (x :: rest') = mainLoop f [x] := by
    intro rest'
    cases e <;> simp [mainLoop, he]
  have hev : ∃ ev, mainLoop f [x] = [ev] ∧ isStderr ev = true := by
    cases e with
    | ioError => exact ⟨Event.errUnknown, by simp [mainLoop, he], rfl⟩
    | linderaError => exact ⟨Event.errTokenize, by simp [mainLoop, he], rfl⟩
    | unknownPronounciationError u =>
      exact ⟨Event.errUnknownReading u.text, by simp [mainLoop, he], rfl⟩
  induction pre with
  | nil =>
    refine ⟨by simpa using hone rest, by simpa using (hone rest).trans (hone []).symm, hev⟩
  | cons p pre ih =>
    obtain ⟨g, hg⟩ := hpre p (by simp)
    obtain ⟨ih1, ih2, _⟩ := ih (fun q hq => hpre q (by simp [hq]))
    cases hk : g.kind with
    | some k =>
      exact ⟨by simp [mainLoop, hg, hk, ih1], by simp [mainLoop, hg, hk, ih2], hev⟩
    | none =>
      exact ⟨by simp [mainLoop, hg, hk, ih1], by simp [mainLoop, hg, hk, ih2], hev⟩

/-- Witness for the amended C9 at a concrete failing phrase. -/
theorem cli_error_stop_witness :
    mainLoop (fun _ => Except.error GomamayoError.linderaError)
        ([] ++ "ホゲ".toList :: ["タイコ".toList]) =
      mainLoop (fun _ => Except.error GomamayoError.linderaError) []
        ++ mainLoop (fun _ => Except.error GomamayoError.linderaError)
          ["ホゲ".toList]
    ∧ mainLoop (fun _ => Except.error GomamayoError.linderaError)
        ([] ++ "ホゲ".toList :: ["タイコ".toList]) =
      mainLoop (fun _ => Except.error GomamayoError.linderaError)
        ([] ++ ["ホゲ".toList])
    ∧ ∃ ev, mainLoop (fun _ => Except.error GomamayoError.linderaError)
        ["ホゲ".toList] = [ev] ∧ isStderr ev = true :=
  cli_error_stop (fun _ => Except.error GomamayoError.linderaError)
    [] "ホゲ".toList ["タイコ".toList] (by simp)
    ⟨GomamayoError.linderaError, rfl⟩

end GomamayoRs
